import Mathlib

/-!
Shallow embedding of the meal-planning tool `averse` (Rust), covering the
data model, the ingredient parser, the recipe/plan store path derivation and
the plan aggregation ("grocery compilation") logic. Rust `f32` amounts are
modelled as exact rationals, fallible code as `Option`/`Except`, and Rust
panics (`unwrap`, `panic!`, out-of-bounds indexing) as a distinguished
`panicked` outcome or as `Option.none` where the panic aborts a whole
pipeline. `HashMap`s are modelled as association lists whose order stands
for the (unspecified) iteration order of the map.
-/

namespace Averse

/-- Valid units of measurement (`UNITS` in `lib.rs`). -/
def UNITS : List String :=
  ["can", "cup", "gallon", "gram", "item", "kg", "lb", "oz", "tsp", "tbsp"]

/-- Ordered days of the week (`WEEK` in `lib.rs`, including the
"Tuedsay" misspelling present in the source). -/
def WEEK : List String :=
  ["Sunday", "Monday", "Tuedsay", "Wednesday", "Thursday", "Friday", "Saturday"]

/-- Enum of all valid units used to describe ingredients (`Unit` in `lib.rs`). -/
inductive Unit where
  | can
  | cup
  | gallon
  | gram
  | item
  | kg
  | lb
  | oz
  | tbsp
  | tsp
deriving DecidableEq

/-- `Display for Unit` in `lib.rs`: the display form of each unit. -/
def Unit.fmt : Unit → String
  | Unit.can => "Can"
  | Unit.cup => "Cup"
  | Unit.gallon => "Gallon"
  | Unit.gram => "Gram"
  | Unit.item => "Item"
  | Unit.kg => "Kg"
  | Unit.lb => "Lb"
  | Unit.oz => "Oz"
  | Unit.tsp => "Tsp"
  | Unit.tbsp => "Tbsp"

/-- Errors of `errors.rs` (`IngredientParsingError`). The `invalidAmount`
variant records the offending token (the source stores the underlying
`ParseFloatError`, which is determined by that token). -/
inductive IngredientParsingError where
  | invalidAmount (text : String)
  | invalidUnit (text : String)
  | noIngredient
deriving DecidableEq

/-- Outcome of a Rust function that can return `Ok`, return `Err`, or panic. -/
inductive RResult (ε α : Type) where
  | ok (a : α)
  | err (e : ε)
  | panicked
deriving DecidableEq

/-- Models Rust `str::to_lowercase` for the ASCII range (the unit vocabulary
is ASCII); per-character lowering of the string's characters. -/
def asciiLower (s : String) : String :=
  ⟨s.data.map Char.toLower⟩

/-- `FromStr for Unit` in `lib.rs`: lowercase the input and match it against
the fixed vocabulary; anything else is `InvalidUnit` carrying the input. -/
def Unit.fromStr (input : String) : Except IngredientParsingError Unit :=
  match asciiLower input with
  | "can" => Except.ok Unit.can
  | "cup" => Except.ok Unit.cup
  | "gallon" => Except.ok Unit.gallon
  | "gram" => Except.ok Unit.gram
  | "item" => Except.ok Unit.item
  | "kg" => Except.ok Unit.kg
  | "lb" => Except.ok Unit.lb
  | "oz" => Except.ok Unit.oz
  | "tsp" => Except.ok Unit.tsp
  | "tbsp" => Except.ok Unit.tbsp
  | _ => Except.error (IngredientParsingError.invalidUnit input)

/-- Numeric value of a list of decimal digit characters. -/
def digitsToNat (l : List Char) : Nat :=
  l.foldl (fun acc c => 10 * acc + (c.toNat - 48)) 0

/-- Exponent part of a float literal: optional sign then at least one digit,
consuming the whole remainder. -/
def parseExpPart (l : List Char) : Option Int :=
  let p :=
    match l with
    | '-' :: r => (true, r)
    | '+' :: r => (false, r)
    | _ => (false, l)
  let d := p.2.takeWhile Char.isDigit
  let r := p.2.dropWhile Char.isDigit
  if d = [] then none
  else if r ≠ [] then none
  else some (if p.1 then -(digitsToNat d : Int) else (digitsToNat d : Int))

/-- Model of Rust `f32::from_str` over exact rationals: optional sign, decimal
significand (digits, optionally with a `.` and further digits, at least one
digit overall), optional `e`/`E` exponent with optional sign. The special
values `inf`/`infinity`/`NaN` and rounding to binary `f32` are outside this
exact-rational model; every numeric literal maps to its exact value. -/
def parseF32? (s : String) : Option Rat :=
  let p :=
    match s.data with
    | '-' :: r => (true, r)
    | '+' :: r => (false, r)
    | l => (false, l)
  let intD := p.2.takeWhile Char.isDigit
  let r1 := p.2.dropWhile Char.isDigit
  let q :=
    match r1 with
    | '.' :: r => (r.takeWhile Char.isDigit, r.dropWhile Char.isDigit)
    | _ => (([] : List Char), r1)
  if intD = [] ∧ q.1 = [] then none
  else
    match (match q.2 with
           | [] => some (0 : Int)
           | 'e' :: r => parseExpPart r
           | 'E' :: r => parseExpPart r
           | _ => none) with
    | none => none
    | some e =>
      let m : Int := (digitsToNat (intD ++ q.1) : Int)
      let base : Int := if p.1 then -m else m
      let shift : Int := e - (q.1.length : Int)
      if 0 ≤ shift then some ((base * 10 ^ shift.toNat : Int) : Rat)
      else some ((base : Rat) / (10 : Rat) ^ ((-shift).toNat))

/-- Ingredient information (`Ingredient` in `lib.rs`); the `f32` amount is
modelled as an exact rational. -/
structure Ingredient where
  name : String
  amount : Rat
  unit : Unit
deriving DecidableEq

/-- Split a character list on the space character, keeping empty pieces;
models Rust `str::split(" ")` (which splits on the literal one-space pattern
and yields empty substrings between consecutive separators). -/
def splitSpace : List Char → List (List Char)
  | [] => [[]]
  | c :: rest =>
    let r := splitSpace rest
    if c = ' ' then [] :: r
    else
      match r with
      | [] => [[c]]
      | g :: gs => (c :: g) :: gs

/-- `input.split(" ").collect::<Vec<_>>()` from `Ingredient::from_str`. -/
def splitOnSpace (s : String) : List String :=
  (splitSpace s.data).map (fun g => String.mk g)

/-- `FromStr for Ingredient` in `lib.rs`: split on `" "`, parse `split[0]` as
the amount (`?` propagates `InvalidAmount` before any further indexing),
parse `split[1]` as the unit, and join `split[2..]` with single spaces as the
name. Indexing `split[1]` out of bounds is a Rust panic, modelled as
`panicked` (the `[]` arm is unreachable: splitting always yields at least
one piece). -/
def Ingredient.fromStr (input : String) : RResult IngredientParsingError Ingredient :=
  match splitOnSpace input with
  | [] => RResult.panicked
  | t0 :: rest =>
    match parseF32? t0 with
    | none => RResult.err (IngredientParsingError.invalidAmount t0)
    | some amount =>
      match rest with
      | [] => RResult.panicked
      | t1 :: rest2 =>
        match Unit.fromStr t1 with
        | Except.error e => RResult.err e
        | Except.ok u => RResult.ok ⟨String.intercalate " " rest2, amount, u⟩

/-- Recipe record (`Recipe` in `lib.rs`). -/
structure Recipe where
  name : String
  tags : List String
  ingredients : List Ingredient
  steps : List String
deriving DecidableEq

/-- Models Rust `str::replace(" ", "-")`: the pattern is a single character,
so the replacement is a character-wise map. -/
def replaceSpaceDash (s : String) : String :=
  ⟨s.data.map (fun c => if c = ' ' then '-' else c)⟩

/-- Models Rust `str::trim` (ASCII whitespace range): drop whitespace from
both ends of the string. -/
def strTrim (s : String) : String :=
  ⟨((s.data.dropWhile Char.isWhitespace).reverse.dropWhile Char.isWhitespace).reverse⟩

/-- Models Rust `PathBuf::set_extension ext` acting on a file name `f` (no
directory separators): if `f` has an extension (a `.` with a nonempty part
before the last `.`), the part after the last `.` is replaced by `ext`;
otherwise (no `.`, or only a leading `.` as in a hidden file) `.ext` is
appended. -/
def setExtension (f ext : String) : String :=
  let r := f.data.reverse
  match r.dropWhile (fun c => c ≠ '.') with
  | [] => f ++ "." ++ ext
  | _ :: stemR =>
    if stemR = [] then f ++ "." ++ ext
    else String.mk stemR.reverse ++ "." ++ ext

/-- `get_recipe_out_path` in `utils.rs`: assert the recipe directory is not
blank (the failed assertion is a panic, modelled as `none`), join the
directory with the name with spaces replaced by hyphens, and set the `yaml`
extension. `Path::join` for a relative, separator-free file name is modelled
as inserting `/`. -/
def get_recipe_out_path (recipe_dir name : String) : Option String :=
  if strTrim recipe_dir = "" then none
  else some (recipe_dir ++ "/" ++ setExtension (replaceSpaceDash name) "yaml")

/-- Map a fallible step over a list, aborting at the first failure with no
partial result; models a Rust iterator whose items are unwrapped (a panic
aborts everything) or collected into a `Result`. -/
def mapOrNone (f : α → Option β) : List α → Option (List β)
  | [] => some []
  | a :: l =>
    match f a with
    | none => none
    | some b => (mapOrNone f l).map (fun bs => b :: bs)

/-- The fields of `Plan` in `plan.rs` that `#[derive(Serialize)]` emits: the
`groceries`, `recipe_dir` and `plan_dir` fields are `#[serde(skip)]` in the
source and so never appear in the serialized output. -/
structure PlanSer where
  name : String
  recipes : List (String × List String)
deriving DecidableEq

/-- `Plan` in `plan.rs`. The `recipes` field is a `HashMap<String,
Vec<String>>`; it is modelled as an association list with (intended) unique
keys whose order stands for the map's unspecified iteration order. -/
structure Plan where
  name : String
  recipes : List (String × List String)
  groceries : List Ingredient
  recipe_dir : String
  plan_dir : String
deriving DecidableEq

/-- Resolution of one recipe name in `Plan::to_recipes`:
`Recipe::try_from(&get_recipe_out_path(&self.recipe_dir, x)).unwrap()`. The
store maps a path to the recipe deserialized from the file there; a missing
file (`panic!` in `TryFrom`), a read error or a deserialization failure
(`unwrap`) are all panics, modelled as `none`. -/
def Plan.resolveRecipe (p : Plan) (store : String → Option Recipe) (name : String) :
    Option Recipe :=
  (get_recipe_out_path p.recipe_dir name).bind store

/-- `Plan::to_recipes`: flatten the day → recipe-names map (in its iteration
order) and resolve every name; any failure is a panic aborting the whole
conversion with no partial list. -/
def Plan.to_recipes (p : Plan) (store : String → Option Recipe) : Option (List Recipe) :=
  mapOrNone (p.resolveRecipe store) (p.recipes.flatMap Prod.snd)

/-- The composite dedup key of `Plan::compile_groceries`:
`format!("{}_{}", ingr.name, ingr.unit)`. -/
def groceryKey (i : Ingredient) : String :=
  i.name ++ "_" ++ Unit.fmt i.unit

/-- One step of `Plan::compile_groceries`:
`ingr_map.entry(key).or_insert(ingr.clone())` — insert the ingredient under
its key only if the key is not present yet. The `HashMap` is an association
list in insertion order. -/
def insertGrocery (m : List (String × Ingredient)) (i : Ingredient) :
    List (String × Ingredient) :=
  if m.any (fun kv => kv.1 = groceryKey i) then m else m ++ [(groceryKey i, i)]

/-- The grocery map built by `Plan::compile_groceries` from the flattened
ingredient sequence of the resolved recipes. -/
def compileMap (ingrs : List Ingredient) : List (String × Ingredient) :=
  ingrs.foldl insertGrocery []

/-- `Plan::compile_groceries`: resolve the plan's recipes (a failure there
panics, aborting with no grocery list), insert every ingredient of every
recipe into the map first-seen-wins, and store the map's values in
`self.groceries`. -/
def Plan.compile_groceries (p : Plan) (store : String → Option Recipe) : Option Plan :=
  (p.to_recipes store).map (fun rs =>
    { p with groceries := (compileMap (rs.flatMap Recipe.ingredients)).map Prod.snd })

/-- `Plan::write`: the output path `plan_dir/name` with extension `yaml`, and
the serialized fields (`serde_yaml::to_string(&self)` emits exactly the
non-skipped fields `name` and `recipes`). -/
def Plan.write (p : Plan) : String × PlanSer :=
  (p.plan_dir ++ "/" ++ setExtension p.name "yaml", ⟨p.name, p.recipes⟩)

/-- `plan_week` in `plan.rs`, after the interactive `add_recipes` phase:
compile the groceries (a resolution failure panics, so nothing is printed
and nothing is written) and otherwise display the grocery list and write the
plan file. -/
def plan_week (p : Plan) (store : String → Option Recipe) :
    Option (List Ingredient × String × PlanSer) :=
  (p.compile_groceries store).map (fun p' => (p'.groceries, p'.write))

/-- One step of the interactive loop of `Plan::add_recipes`:
`self.recipes.entry(WEEK[day_idx].into()).or_insert(vec![]).push(name)` —
append the recipe name to the chosen day's list, creating the entry first
when absent. -/
def addAssign (m : List (String × List String)) (day recipe : String) :
    List (String × List String) :=
  if m.any (fun kv => kv.1 = day) then
    m.map (fun kv => if kv.1 = day then (kv.1, kv.2 ++ [recipe]) else kv)
  else m ++ [(day, [recipe])]

/-- `Plan::add_recipes`: the interactively chosen (day index, recipe name)
pairs are folded into the plan's day → recipe-names map; every day key is
`WEEK[day_idx]` for a selected index into `WEEK`. -/
def Plan.add_recipes (p : Plan) (choices : List (Fin 7 × String)) : Plan :=
  { p with
    recipes := choices.foldl (fun m c => addAssign m (WEEK.get (Fin.cast rfl c.1)) c.2)
      p.recipes }

/-- The row type displayed for a plan (`PlanRow` in `lib.rs`). -/
structure PlanRow where
  Date : String
  Sunday : String
  Monday : String
  Tuesday : String
  Wednesday : String
  Thursday : String
  Friday : String
  Saturday : String
deriving DecidableEq

/-- `p.recipes.get(day)` on the modelled `HashMap`. -/
def Plan.getDay (p : Plan) (day : String) : Option (List String) :=
  (p.recipes.find? (fun kv => kv.1 = day)).map Prod.snd

/-- `From<Plan> for PlanRow` in `plan.rs`: each column looks up the
correctly spelled day name (including `"Tuesday"`), defaulting to
`vec![String::from("")]`, and joins the list with `"\n "`. -/
def PlanRow.fromPlan (p : Plan) : PlanRow :=
  let dflt := [""]
  { Date := p.name
    Sunday := String.intercalate "\n " ((p.getDay "Sunday").getD dflt)
    Monday := String.intercalate "\n " ((p.getDay "Monday").getD dflt)
    Tuesday := String.intercalate "\n " ((p.getDay "Tuesday").getD dflt)
    Wednesday := String.intercalate "\n " ((p.getDay "Wednesday").getD dflt)
    Thursday := String.intercalate "\n " ((p.getDay "Thursday").getD dflt)
    Friday := String.intercalate "\n " ((p.getDay "Friday").getD dflt)
    Saturday := String.intercalate "\n " ((p.getDay "Saturday").getD dflt) }

/-- Pad a string with spaces on the right to a minimum width of 30
characters, as Rust `format!("{:30}", ..)` does. -/
def padTo30 (s : String) : String :=
  s ++ String.mk (List.replicate (30 - s.length) ' ')

/-- `Recipe::summary` in `lib.rs`:
`format!("{:30} -- {}", self.name.replace("-", " "), self.tags.join(", "))`. -/
def Recipe.summary (r : Recipe) : String :=
  padTo30 ⟨r.name.data.map (fun c => if c = '-' then ' ' else c)⟩
    ++ " -- " ++ String.intercalate ", " r.tags

/-- `get_jsons` in `utils.rs`: every entry of the directory is returned —
there is no filtering by extension. The directory is modelled as an
association list from entry path to file content. -/
def get_jsons (dir : List (String × String)) : List String :=
  dir.map Prod.fst

/-- `Recipe::try_from(path)` over a modelled directory: read the file at the
path and deserialize it (`deser` stands for `serde_yaml::from_str`); a
missing file or a deserialization error aborts (panic / `?`-propagated
error), modelled as `none`. -/
def recipeTryFrom (dir : List (String × String)) (deser : String → Option Recipe)
    (path : String) : Option Recipe :=
  (dir.find? (fun e => e.1 = path)).bind (fun e => deser e.2)

/-- `summarize_recipes` in `utils.rs`: deserialize and summarize the file at
every path from `get_jsons` — all entries, whatever their extension — with
any single failure aborting the whole listing. -/
def summarize_recipes (dir : List (String × String)) (deser : String → Option Recipe) :
    Option (List String) :=
  mapOrNone (fun path => (recipeTryFrom dir deser path).map Recipe.summary) (get_jsons dir)

theorem append_cons_inj {α : Type} {c : α} :
    ∀ (l1 l2 r1 r2 : List α), c ∉ l1 → c ∉ l2 →
      l1 ++ c :: r1 = l2 ++ c :: r2 → l1 = l2 ∧ r1 = r2 := by
  intro l1
  induction l1 with
  | nil =>
    intro l2 r1 r2 _ h2 heq
    cases l2 with
    | nil => simpa using heq
    | cons b t =>
      simp only [List.nil_append, List.cons_append, List.cons.injEq] at heq
      exact absurd heq.1 (by simp at h2; exact fun hcb => h2.1 hcb)
  | cons a t1 ih =>
    intro l2 r1 r2 h1 h2 heq
    cases l2 with
    | nil =>
      simp only [List.nil_append, List.cons_append, List.cons.injEq] at heq
      exact absurd heq.1 (by simp at h1; exact fun hac => h1.1 hac.symm)
    | cons b t2 =>
      simp only [List.cons_append, List.cons.injEq] at heq
      have hrec := ih t2 r1 r2 (fun hm => h1 (List.mem_cons_of_mem _ hm))
        (fun hm => h2 (List.mem_cons_of_mem _ hm)) heq.2
      exact ⟨by rw [heq.1, hrec.1], hrec.2⟩

theorem unit_fmt_no_underscore (u : Unit) : '_' ∉ (Unit.fmt u).data.reverse := by
  cases u <;> decide

theorem unit_fmt_inj : ∀ u v : Unit, Unit.fmt u = Unit.fmt v → u = v := by
  intro u v
  cases u <;> cases v <;> decide

/-- C3: during plan aggregation, two ingredients are merged into one
grocery-list entry exactly when their (name, unit) pairs are equal: the
composite dedup key `name ++ "_" ++ unit-display` used by
`Plan::compile_groceries` identifies two ingredients if and only if their
names are equal (case-sensitively, as stored) and their units are equal, so
the key is injective on (name, unit) pairs and ingredients differing in name
or unit are never merged. -/
theorem groceryKey_eq_iff_name_unit_eq (i1 i2 : Ingredient) :
    groceryKey i1 = groceryKey i2 ↔ i1.name = i2.name ∧ i1.unit = i2.unit := by
  constructor
  · intro h
    have hd : i1.name.data ++ '_' :: (Unit.fmt i1.unit).data
        = i2.name.data ++ '_' :: (Unit.fmt i2.unit).data := by
      have hc := congrArg String.data h
      simpa [groceryKey, String.data_append] using hc
    have hrev : (Unit.fmt i1.unit).data.reverse ++ '_' :: i1.name.data.reverse
        = (Unit.fmt i2.unit).data.reverse ++ '_' :: i2.name.data.reverse := by
      have hc := congrArg List.reverse hd
      simpa [List.reverse_append] using hc
    have hsplit := append_cons_inj _ _ _ _ (unit_fmt_no_underscore i1.unit)
      (unit_fmt_no_underscore i2.unit) hrev
    have hu : i1.unit = i2.unit := by
      apply unit_fmt_inj
      exact String.ext (List.reverse_injective hsplit.1)
    have hn : i1.name = i2.name :=
      String.ext (List.reverse_injective hsplit.2)
    exact ⟨hn, hu⟩
  · intro h
    simp [groceryKey, h.1, h.2]

theorem foldl_insertGrocery_filter_of_mem (k : String) :
    ∀ (l : List Ingredient) (acc : List (String × Ingredient)),
      acc.any (fun kv => kv.1 = k) = true →
      (l.foldl insertGrocery acc).filter (fun kv => kv.1 = k)
        = acc.filter (fun kv => kv.1 = k) := by
  intro l
  induction l with
  | nil => intro acc _; rfl
  | cons i t ih =>
    intro acc h
    rw [List.foldl_cons]
    by_cases hi : acc.any (fun kv => kv.1 = groceryKey i) = true
    · rw [show insertGrocery acc i = acc by simp [insertGrocery, hi]]
      exact ih acc h
    · have hne : groceryKey i ≠ k := by
        intro hk
        exact hi (by rw [hk]; exact h)
      rw [show insertGrocery acc i = acc ++ [(groceryKey i, i)] by
        simp [insertGrocery, hi]]
      rw [ih (acc ++ [(groceryKey i, i)]) (by simp [List.any_append, h])]
      simp [List.filter_append, hne]

theorem foldl_insertGrocery_filter_of_not_mem (k : String) :
    ∀ (l : List Ingredient) (acc : List (String × Ingredient)),
      acc.any (fun kv => kv.1 = k) = false →
      (l.foldl insertGrocery acc).filter (fun kv => kv.1 = k)
        = ((l.filter (fun i => groceryKey i = k)).take 1).map (fun i => (groceryKey i, i)) := by
  intro l
  induction l with
  | nil =>
    intro acc h
    exact List.filter_eq_nil_iff.mpr (List.any_eq_false.mp h)
  | cons i t ih =>
    intro acc h
    rw [List.foldl_cons]
    by_cases hik : groceryKey i = k
    · have hacc_i : acc.any (fun kv => kv.1 = groceryKey i) = false := by
        rw [hik]; exact h
      rw [show insertGrocery acc i = acc ++ [(groceryKey i, i)] by
        simp [insertGrocery, hacc_i]]
      rw [foldl_insertGrocery_filter_of_mem k t _ (by simp [List.any_append, hik])]
      rw [List.filter_append, List.filter_eq_nil_iff.mpr (List.any_eq_false.mp h)]
      simp [hik]
    · have hstep : (insertGrocery acc i).any (fun kv => kv.1 = k) = false := by
        by_cases hacc : acc.any (fun kv => kv.1 = groceryKey i) = true
        · simpa [insertGrocery, hacc] using h
        · simp [insertGrocery, hacc, List.any_append, h, hik]
      rw [ih _ hstep]
      simp [List.filter_cons, hik]

theorem foldl_insertGrocery_key_eq :
    ∀ (l : List Ingredient) (acc : List (String × Ingredient)),
      (∀ kv ∈ acc, kv.1 = groceryKey kv.2) →
      ∀ kv ∈ l.foldl insertGrocery acc, kv.1 = groceryKey kv.2 := by
  intro l
  induction l with
  | nil => intro acc h; exact h
  | cons i t ih =>
    intro acc h
    rw [List.foldl_cons]
    apply ih
    intro kv hkv
    unfold insertGrocery at hkv
    by_cases hacc : acc.any (fun kv => kv.1 = groceryKey i) = true
    · rw [if_pos hacc] at hkv
      exact h kv hkv
    · rw [if_neg hacc] at hkv
      rcases List.mem_append.mp hkv with hm | hm
      · exact h kv hm
      · have : kv = (groceryKey i, i) := by simpa using hm
        rw [this]

/-- C1: for every plan whose referenced recipes all resolve,
`Plan::compile_groceries` deduplicates first-seen-wins: for any dedup key,
the grocery list's entries with that key are exactly the first ingredient
with that key in the flattened ingredient sequence of the resolved recipes
(so there is exactly one entry when the key occurs at all, it carries the
first occurrence's amount, later occurrences are dropped, and amounts are
never summed). -/
theorem compile_groceries_first_seen_wins (p : Plan) (store : String → Option Recipe)
    (rs : List Recipe) (h : p.to_recipes store = some rs) (k : String) :
    ∃ p', p.compile_groceries store = some p' ∧
      p'.groceries.filter (fun i => groceryKey i = k)
        = ((rs.flatMap Recipe.ingredients).filter (fun i => groceryKey i = k)).take 1 := by
  refine ⟨_, by rw [Plan.compile_groceries, h]; rfl, ?_⟩
  show ((compileMap (rs.flatMap Recipe.ingredients)).map Prod.snd).filter
      (fun i => groceryKey i = k) = _
  rw [List.filter_map]
  have hinv := foldl_insertGrocery_key_eq (rs.flatMap Recipe.ingredients) []
    (by intro kv hkv; cases hkv)
  rw [List.filter_congr (q := fun kv => kv.1 = k)
    (fun kv hkv => by simp [Function.comp, hinv kv hkv])]
  rw [show compileMap (rs.flatMap Recipe.ingredients)
      = (rs.flatMap Recipe.ingredients).foldl insertGrocery [] from rfl]
  rw [foldl_insertGrocery_filter_of_not_mem k _ [] rfl]
  rw [List.map_map]
  rw [show (Prod.snd ∘ fun i => (groceryKey i, i)) = @id Ingredient from rfl]
  simp

def recipeA : Recipe := ⟨"RecA", [], [⟨"flour", 1, Unit.cup⟩], []⟩

def recipeB : Recipe := ⟨"RecB", [], [⟨"flour", 2, Unit.cup⟩], []⟩

def storeAB : String → Option Recipe := fun path =>
  if path = "recipes/RecA.yaml" then some recipeA
  else if path = "recipes/RecB.yaml" then some recipeB
  else none

def planAB : Plan := ⟨"2022-07-31", [("Monday", ["RecA", "RecB"])], [], "recipes", "plans"⟩

theorem compile_groceries_first_seen_wins_witness :
    ∃ p', planAB.compile_groceries storeAB = some p' ∧
      p'.groceries.filter (fun i => groceryKey i = "flour_Cup")
        = (([recipeA, recipeB].flatMap Recipe.ingredients).filter
            (fun i => groceryKey i = "flour_Cup")).take 1 :=
  compile_groceries_first_seen_wins planAB storeAB [recipeA, recipeB] (by decide) "flour_Cup"

theorem mapOrNone_eq_none_of_mem {α β : Type} (f : α → Option β) (x : α)
    (hfx : f x = none) : ∀ l : List α, x ∈ l → mapOrNone f l = none := by
  intro l
  induction l with
  | nil => intro hx; cases hx
  | cons a t ih =>
    intro hx
    rcases List.mem_cons.mp hx with rfl | hm
    · simp [mapOrNone, hfx]
    · cases hfa : f a with
      | none => simp [mapOrNone, hfa]
      | some b => simp [mapOrNone, hfa, ih hm]

/-- C2: for every plan containing a recipe name that does not resolve to a
stored recipe, `Plan::to_recipes` aborts, `Plan::compile_groceries` fails
and produces no grocery list (not even a partial one), and `plan_week`
aborts without writing a plan file. -/
theorem plan_aborts_on_unresolved_recipe (p : Plan) (store : String → Option Recipe)
    (day name : String) (names : List String)
    (hday : (day, names) ∈ p.recipes) (hname : name ∈ names)
    (hmiss : p.resolveRecipe store name = none) :
    p.to_recipes store = none ∧ p.compile_groceries store = none
      ∧ plan_week p store = none := by
  have hmem : name ∈ p.recipes.flatMap Prod.snd :=
    List.mem_flatMap.mpr ⟨(day, names), hday, hname⟩
  have h1 : p.to_recipes store = none :=
    mapOrNone_eq_none_of_mem _ _ hmiss _ hmem
  exact ⟨h1, by simp [Plan.compile_groceries, h1],
    by simp [plan_week, Plan.compile_groceries, h1]⟩

theorem plan_aborts_on_unresolved_recipe_witness :
    Plan.to_recipes ⟨"2022-07-31", [("Monday", ["Ghost"])], [], "recipes", "plans"⟩
        (fun _ => none) = none
      ∧ Plan.compile_groceries ⟨"2022-07-31", [("Monday", ["Ghost"])], [], "recipes", "plans"⟩
        (fun _ => none) = none
      ∧ plan_week ⟨"2022-07-31", [("Monday", ["Ghost"])], [], "recipes", "plans"⟩
        (fun _ => none) = none :=
  plan_aborts_on_unresolved_recipe _ _ "Monday" "Ghost" ["Ghost"]
    (List.mem_singleton.mpr rfl) (List.mem_singleton.mpr rfl) (by decide)

/-- Split a character list at whitespace characters, keeping empty pieces. -/
def splitByWhitespace : List Char → List (List Char)
  | [] => [[]]
  | c :: rest =>
    let r := splitByWhitespace rest
    if Char.isWhitespace c then [] :: r
    else
      match r with
      | [] => [[c]]
      | g :: gs => (c :: g) :: gs

/-- Modelled from the spec: "tokenized on whitespace" / "whitespace-separated
tokens" — split on whitespace and drop empty pieces (as Rust
`split_whitespace` would). Stated only for comparison with the source's
split on the single space character. -/
def specWhitespaceTokens (s : String) : List String :=
  ((splitByWhitespace s.data).map (fun g => String.mk g)).filter (fun t => t ≠ "")

theorem c4_counterexample :
    specWhitespaceTokens "2  lb beef" = ["2", "lb", "beef"]
      ∧ parseF32? "2" = some 2 ∧ (0 : Rat) ≤ 2
      ∧ Unit.fromStr "lb" = Except.ok Unit.lb
      ∧ Ingredient.fromStr "2  lb beef"
          = RResult.err (IngredientParsingError.invalidUnit "") :=
  ⟨by decide, by decide, by decide, rfl, by decide⟩

/-- C4 (amended): the source tokenizes on the single space character, not on
general whitespace. For every input whose split on `" "` has tokens
`t0 :: t1 :: t2 :: rest`, where `t0` parses as a non-negative float and `t1`
case-insensitively matches one of the ten fixed units, parsing succeeds with
the parsed amount, the canonical unit, and name = the remaining tokens
rejoined with single spaces. -/
theorem ingredient_parse_valid_space_separated (s t0 t1 t2 : String) (rest : List String)
    (q : Rat) (u : Unit)
    (hsplit : splitOnSpace s = t0 :: t1 :: t2 :: rest)
    (hq : parseF32? t0 = some q) (hq0 : 0 ≤ q)
    (hu : Unit.fromStr t1 = Except.ok u) :
    Ingredient.fromStr s = RResult.ok ⟨String.intercalate " " (t2 :: rest), q, u⟩ := by
  simp [Ingredient.fromStr, hsplit, hq, hu]

theorem ingredient_parse_valid_space_separated_witness :
    Ingredient.fromStr "2 lb beef chuck" = RResult.ok ⟨"beef chuck", 2, Unit.lb⟩ :=
  ingredient_parse_valid_space_separated "2 lb beef chuck" "2" "lb" "beef" ["chuck"]
    2 Unit.lb (by decide) (by decide) (by decide) rfl

theorem c5_counterexample :
    splitOnSpace "2 lb" = ["2", "lb"]
      ∧ Ingredient.fromStr "2 lb" = RResult.ok ⟨"", 2, Unit.lb⟩
      ∧ splitOnSpace "2" = ["2"]
      ∧ Ingredient.fromStr "2" = RResult.panicked :=
  ⟨by decide, by decide, by decide, by decide⟩

theorem unit_fromStr_error_eq (t : String) (e : IngredientParsingError)
    (h : Unit.fromStr t = Except.error e) : e = IngredientParsingError.invalidUnit t := by
  unfold Unit.fromStr at h
  split at h <;> simp_all

/-- C5 (amended): an input whose split on the space character has fewer than
3 tokens is never reported as a missing-fields error (no such error exists;
`NoIngredient` is never produced by parsing). Instead: if the first token
fails to parse as a float the result is `InvalidAmountError`; a one-token
input with a valid amount panics on the out-of-bounds `split[1]`; a
two-token input with valid amount and unit succeeds with an empty name; and
an invalid second token yields `InvalidUnitError`. -/
theorem ingredient_parse_short_input (s t0 : String) (rest : List String)
    (hsplit : splitOnSpace s = t0 :: rest) (hlen : rest.length ≤ 1) :
    Ingredient.fromStr s ≠ RResult.err IngredientParsingError.noIngredient
      ∧ (Ingredient.fromStr s = RResult.err (IngredientParsingError.invalidAmount t0)
        ∨ Ingredient.fromStr s = RResult.panicked
        ∨ (∃ t1, Ingredient.fromStr s = RResult.err (IngredientParsingError.invalidUnit t1))
        ∨ (∃ q u, Ingredient.fromStr s = RResult.ok ⟨"", q, u⟩)) := by
  rcases hq : parseF32? t0 with _ | q
  · have hres : Ingredient.fromStr s = RResult.err (IngredientParsingError.invalidAmount t0) := by
      simp [Ingredient.fromStr, hsplit, hq]
    exact ⟨by simp [hres], Or.inl hres⟩
  · cases rest with
    | nil =>
      have hres : Ingredient.fromStr s = RResult.panicked := by
        simp [Ingredient.fromStr, hsplit, hq]
      exact ⟨by simp [hres], Or.inr (Or.inl hres)⟩
    | cons t1 rest2 =>
      have hr2 : rest2 = [] := by
        cases rest2 with
        | nil => rfl
        | cons a b => simp at hlen
      subst hr2
      rcases hu : Unit.fromStr t1 with e | u
      · have he := unit_fromStr_error_eq t1 e hu
        subst he
        have hres : Ingredient.fromStr s
            = RResult.err (IngredientParsingError.invalidUnit t1) := by
          simp [Ingredient.fromStr, hsplit, hq, hu]
        exact ⟨by simp [hres], Or.inr (Or.inr (Or.inl ⟨t1, hres⟩))⟩
      · have hres : Ingredient.fromStr s = RResult.ok ⟨"", q, u⟩ := by
          simp [Ingredient.fromStr, hsplit, hq, hu, String.intercalate]
        exact ⟨by simp [hres], Or.inr (Or.inr (Or.inr ⟨q, u, hres⟩))⟩

theorem ingredient_parse_short_input_witness :
    Ingredient.fromStr "2 lb" ≠ RResult.err IngredientParsingError.noIngredient
      ∧ (Ingredient.fromStr "2 lb" = RResult.err (IngredientParsingError.invalidAmount "2")
        ∨ Ingredient.fromStr "2 lb" = RResult.panicked
        ∨ (∃ t1, Ingredient.fromStr "2 lb"
            = RResult.err (IngredientParsingError.invalidUnit t1))
        ∨ (∃ q u, Ingredient.fromStr "2 lb" = RResult.ok ⟨"", q, u⟩)) :=
  ingredient_parse_short_input "2 lb" "2" ["lb"] (by decide) (by decide)

theorem c6_counterexample :
    splitOnSpace "-2 lb beef" = ["-2", "lb", "beef"]
      ∧ Ingredient.fromStr "-2 lb beef" = RResult.ok ⟨"beef", -2, Unit.lb⟩ :=
  ⟨by decide, by decide⟩

/-- C6 (amended): parsing returns `InvalidAmountError` exactly when the first
token fails to parse as a float at all; the sign is not checked, so a
negative first token parses and yields an Ingredient with a negative
amount (see the counterexample). -/
theorem invalid_amount_iff_float_parse_fails (s t0 : String) (rest : List String)
    (hsplit : splitOnSpace s = t0 :: rest) :
    Ingredient.fromStr s = RResult.err (IngredientParsingError.invalidAmount t0)
      ↔ parseF32? t0 = none := by
  constructor
  · intro h
    rcases hq : parseF32? t0 with _ | q
    · rfl
    · exfalso
      cases rest with
      | nil => simp [Ingredient.fromStr, hsplit, hq] at h
      | cons t1 rest2 =>
        rcases hu : Unit.fromStr t1 with e | u
        · have he := unit_fromStr_error_eq t1 e hu
          subst he
          simp [Ingredient.fromStr, hsplit, hq, hu] at h
        · simp [Ingredient.fromStr, hsplit, hq, hu] at h
  · intro hq
    simp [Ingredient.fromStr, hsplit, hq]

theorem invalid_amount_iff_float_parse_fails_witness :
    Ingredient.fromStr "abc lb beef"
        = RResult.err (IngredientParsingError.invalidAmount "abc")
      ↔ parseF32? "abc" = none :=
  invalid_amount_iff_float_parse_fails "abc lb beef" "abc" ["lb", "beef"] (by decide)

/-- Models Rust `Path::extension` on a file name: the part after the last
dot, provided the stem before that dot is nonempty. -/
def fileExtension (f : String) : Option String :=
  match f.data.reverse.dropWhile (fun c => c ≠ '.') with
  | [] => none
  | _ :: stemR =>
    if stemR = [] then none
    else some (String.mk (f.data.reverse.takeWhile (fun c => c ≠ '.')).reverse)

theorem c7_counterexample :
    get_recipe_out_path "recipes" "a.b" = some "recipes/a.yaml"
      ∧ "recipes/a.yaml" ≠ "recipes" ++ "/" ++ replaceSpaceDash "a.b" ++ ".yaml" :=
  ⟨by decide, by decide⟩

/-- C7 (amended): for every recipe name whose hyphenated form contains no
dot (and a non-blank recipe directory), storage key derivation replaces
every space in the name with a hyphen and appends the fixed `.yaml`
extension — for a name whose hyphenated form already contains a dot,
`set_extension` instead replaces the part after the last dot (see the
counterexample). The name-to-base-name transformation is idempotent:
hyphenating an already-hyphenated base name yields the same base name. -/
theorem recipe_path_hyphenates_and_appends_yaml (dir name : String)
    (hdir : strTrim dir ≠ "") (hnodot : '.' ∉ (replaceSpaceDash name).data) :
    get_recipe_out_path dir name
        = some (dir ++ "/" ++ replaceSpaceDash name ++ ".yaml")
      ∧ replaceSpaceDash (replaceSpaceDash name) = replaceSpaceDash name := by
  constructor
  · rw [get_recipe_out_path, if_neg hdir]
    have hnil : (replaceSpaceDash name).data.reverse.dropWhile (fun c => c ≠ '.') = [] := by
      refine List.dropWhile_eq_nil_iff.mpr ?_
      intro x hx
      have hxmem : x ∈ (replaceSpaceDash name).data := List.mem_reverse.mp hx
      simp only [ne_eq, decide_eq_true_eq]
      intro hxdot
      exact hnodot (hxdot ▸ hxmem)
    simp only [setExtension, hnil]
    rw [String.append_assoc (replaceSpaceDash name) "." "yaml"]
    rw [show ("." ++ "yaml" : String) = ".yaml" from rfl]
    rw [← String.append_assoc]
  · apply String.ext
    simp only [replaceSpaceDash, List.map_map]
    refine List.map_congr_left ?_
    intro c _
    by_cases hc : c = ' ' <;> simp [hc, Function.comp]

theorem recipe_path_hyphenates_and_appends_yaml_witness :
    get_recipe_out_path "Some/arbitrary/path" "Recipe name"
        = some "Some/arbitrary/path/Recipe-name.yaml"
      ∧ replaceSpaceDash (replaceSpaceDash "Recipe name")
        = replaceSpaceDash "Recipe name" :=
  recipe_path_hyphenates_and_appends_yaml "Some/arbitrary/path" "Recipe name"
    (by decide) (by decide)

theorem c8_counterexample :
    fileExtension "recipes/notes.txt" = some "txt"
      ∧ some "txt" ≠ some "yaml"
      ∧ get_jsons [("recipes/notes.txt", "not a recipe")] = ["recipes/notes.txt"]
      ∧ summarize_recipes [("recipes/notes.txt", "not a recipe")] (fun _ => none) = none :=
  ⟨by decide, by decide, rfl, by decide⟩

theorem mapOrNone_map {α β γ : Type} (g : β → Option γ) (f : α → β) :
    ∀ l : List α, mapOrNone g (l.map f) = mapOrNone (fun a => g (f a)) l := by
  intro l
  induction l with
  | nil => rfl
  | cons a t ih => simp [mapOrNone, ih]

theorem mapOrNone_congr {α β : Type} {f g : α → Option β} :
    ∀ {l : List α}, (∀ a ∈ l, f a = g a) → mapOrNone f l = mapOrNone g l := by
  intro l
  induction l with
  | nil => intro _; rfl
  | cons a t ih =>
    intro h
    have ha := h a (List.mem_cons_self a t)
    simp [mapOrNone, ha, ih (fun x hx => h x (List.mem_cons_of_mem a hx))]

theorem find?_key_eq_self {e : String × String} :
    ∀ {dir : List (String × String)}, e ∈ dir → (dir.map Prod.fst).Nodup →
      dir.find? (fun kv => kv.1 = e.1) = some e := by
  intro dir
  induction dir with
  | nil => intro he; cases he
  | cons d t ih =>
    intro he hnd
    rcases List.mem_cons.mp he with rfl | hm
    · exact List.find?_cons_of_pos _ (by simp)
    · have hd1 : d.1 ≠ e.1 := by
        intro hde
        have : e.1 ∈ t.map Prod.fst := List.mem_map.mpr ⟨e, hm, rfl⟩
        rw [List.map_cons, List.nodup_cons] at hnd
        exact hnd.1 (hde ▸ this)
      rw [List.find?_cons_of_neg _ (by simp [hd1])]
      exact ih hm ((List.nodup_cons.mp (List.map_cons Prod.fst d t ▸ hnd)).2)

/-- C8 (amended): `get_jsons` enumerates every directory entry with no
filtering by extension, and `summarize_recipes` deserializes the content of
every enumerated entry — whatever its extension — so the listing equals
deserializing all entries in order, with any single failure (of any entry,
`.yaml` or not) aborting the whole listing with no partial result. -/
theorem summarize_deserializes_every_entry (dir : List (String × String))
    (deser : String → Option Recipe) (hnd : (dir.map Prod.fst).Nodup) :
    summarize_recipes dir deser
      = mapOrNone (fun e => (deser e.2).map Recipe.summary) dir := by
  rw [summarize_recipes, get_jsons, mapOrNone_map]
  refine mapOrNone_congr ?_
  intro e he
  rw [recipeTryFrom, find?_key_eq_self he hnd]
  rfl

theorem summarize_deserializes_every_entry_witness :
    summarize_recipes [("recipes/a.yaml", "A"), ("recipes/b.txt", "B")]
        (fun c => if c = "A" then some recipeA else none)
      = mapOrNone (fun e => ((if e.2 = "A" then some recipeA else none)).map Recipe.summary)
          [("recipes/a.yaml", "A"), ("recipes/b.txt", "B")] :=
  summarize_deserializes_every_entry _ (fun c => if c = "A" then some recipeA else none)
    (by decide)

/-- C9: saving a plan persists only the plan's date-name and its
day → recipe-names assignment map: the serialized output of `Plan::write` is
independent of the (serde-skipped) grocery list and directory-path fields,
and also after `compile_groceries` has filled the grocery list the written
fields are still exactly the original name and assignment map. -/
theorem plan_write_persists_only_assignments (p : Plan) (store : String → Option Recipe)
    (gl : List Ingredient) :
    (Plan.write p).2 = PlanSer.mk p.name p.recipes
      ∧ Plan.write { p with groceries := gl } = Plan.write p
      ∧ ∀ p', p.compile_groceries store = some p' →
          (Plan.write p').2 = PlanSer.mk p.name p.recipes := by
  refine ⟨rfl, rfl, ?_⟩
  intro p' h
  rcases hrs : p.to_recipes store with _ | rs
  · rw [Plan.compile_groceries, hrs] at h
    cases h
  · rw [Plan.compile_groceries, hrs] at h
    have h' : ({ p with groceries :=
        (compileMap (rs.flatMap Recipe.ingredients)).map Prod.snd } : Plan) = p' := by
      simpa using h
    rw [← h']
    rfl

theorem plan_write_persists_only_assignments_witness :
    (Plan.write (Plan.mk "2022-01-01" [("Friday", [])] [] "r" "pl")).2
      = PlanSer.mk "2022-01-01" [("Friday", [])] :=
  (plan_write_persists_only_assignments
      (Plan.mk "2022-01-01" [("Friday", [])] [⟨"flour", 1, Unit.cup⟩] "r" "pl")
      (fun _ => none) []).2.2
    (Plan.mk "2022-01-01" [("Friday", [])] [] "r" "pl") (by decide)

theorem addAssign_keys (m : List (String × List String)) (day r : String)
    (hm : ∀ k ∈ m.map Prod.fst, k ∈ WEEK) (hd : day ∈ WEEK) :
    ∀ k ∈ (addAssign m day r).map Prod.fst, k ∈ WEEK := by
  intro k hk
  unfold addAssign at hk
  by_cases h : m.any (fun kv => kv.1 = day) = true
  · rw [if_pos h] at hk
    rw [List.map_map] at hk
    obtain ⟨kv, hkv, hfst⟩ := List.mem_map.mp hk
    have hkeq : k = kv.1 := by
      by_cases hkvd : kv.1 = day
      · simp [Function.comp, hkvd] at hfst
        rw [hkvd]
        exact hfst.symm
      · simp [Function.comp, hkvd] at hfst
        exact hfst.symm
    rw [hkeq]
    exact hm kv.1 (List.mem_map.mpr ⟨kv, hkv, rfl⟩)
  · rw [if_neg h, List.map_append] at hk
    rcases List.mem_append.mp hk with h1 | h2
    · exact hm k h1
    · have : k = day := by simpa using h2
      rw [this]
      exact hd

theorem foldl_addAssign_keys :
    ∀ (choices : List (Fin 7 × String)) (m : List (String × List String)),
      (∀ k ∈ m.map Prod.fst, k ∈ WEEK) →
      ∀ k ∈ (choices.foldl
          (fun m c => addAssign m (WEEK.get (Fin.cast rfl c.1)) c.2) m).map Prod.fst,
        k ∈ WEEK := by
  intro choices
  induction choices with
  | nil => intro m hm; exact hm
  | cons c t ih =>
    intro m hm
    rw [List.foldl_cons]
    exact ih _ (addAssign_keys m _ c.2 hm (List.get_mem WEEK _ _))

/-- C10: the `WEEK` array spells the third weekday `"Tuedsay"` while the
plan-row conversion looks up the key `"Tuesday"`, so for every plan whose
day keys come from `WEEK` (as all plans built by the interactive
`add_recipes` flow do, whatever further choices are folded in), the Tuesday
column of the rendered plan row is always the empty default and recipes
assigned to the third weekday never appear under Tuesday. -/
theorem tuesday_column_always_empty (p : Plan) (choices : List (Fin 7 × String))
    (hkeys : ∀ k ∈ p.recipes.map Prod.fst, k ∈ WEEK) :
    WEEK.getD 2 "" = "Tuedsay" ∧ "Tuesday" ∉ WEEK
      ∧ (∀ k ∈ (p.add_recipes choices).recipes.map Prod.fst, k ∈ WEEK)
      ∧ (PlanRow.fromPlan (p.add_recipes choices)).Tuesday = "" := by
  have hkeys' : ∀ k ∈ (p.add_recipes choices).recipes.map Prod.fst, k ∈ WEEK :=
    foldl_addAssign_keys choices p.recipes hkeys
  refine ⟨rfl, by decide, hkeys', ?_⟩
  have hnone : (p.add_recipes choices).recipes.find? (fun kv => kv.1 = "Tuesday") = none := by
    refine List.find?_eq_none.mpr ?_
    intro kv hkv
    simp only [decide_eq_true_eq]
    intro hk
    have : "Tuesday" ∈ WEEK :=
      hkeys' "Tuesday" (List.mem_map.mpr ⟨kv, hkv, hk⟩)
    exact absurd this (by decide)
  show String.intercalate "\n "
      (((Plan.getDay (p.add_recipes choices) "Tuesday")).getD [""]) = ""
  rw [Plan.getDay, hnone]
  rfl

theorem tuesday_column_always_empty_witness :
    WEEK.getD 2 "" = "Tuedsay" ∧ "Tuesday" ∉ WEEK
      ∧ (∀ k ∈ ((Plan.mk "2022-07-31" [] [] "r" "pl").add_recipes
          [(⟨2, by decide⟩, "Tacos")]).recipes.map Prod.fst, k ∈ WEEK)
      ∧ (PlanRow.fromPlan ((Plan.mk "2022-07-31" [] [] "r" "pl").add_recipes
          [(⟨2, by decide⟩, "Tacos")])).Tuesday = "" :=
  tuesday_column_always_empty (Plan.mk "2022-07-31" [] [] "r" "pl")
    [(⟨2, by decide⟩, "Tacos")] (by simp)

end Averse
